import Mathlib

/-!
# Verification of the carmi VM compiler and runtime template

This file gives a shallow embedding, in Lean 4, of the core of the carmi
repository:

* the runtime envelope template (`src/unnamed/part_000` / `part_001`): the
  instance state machine (`$setter`, `$endBatch`, `recalculate`), the model
  mutation helpers (`ensurePath`, `getAssignableObject`, `set`, `splice`,
  `push`) and the library combinators (`loopFunction`, `recursiveMap`,
  `recursiveMapValues`);
* the VM compiler (`src/src/vm/vm-compiler.ts`): the hash-consing tables
  (`addPrimitive`, `addMetaData`, `addPath`), the projection builder
  (`serializeProjection` / `generateProjectionFromExpression` with the
  argument manipulators), the setter compiler and the packer
  (`buildProjectionData`).

JavaScript values are modelled by inductive types; mutable tables are passed
as explicit state (insertion-ordered association lists, mirroring JS object
key order); the mutually recursive traversals receive an explicit fuel
argument (the JS code recurses without bound; all statements below either
hold for every fuel or are evaluated at a sufficiently large concrete fuel).
Code of the repository that is not under `src/` (the `expr-hash` module, the
`vm-rt` packing constants, `pathMatches`, `topLevelToIndex`, `shortSource`)
is modelled from the spec; each such definition carries a doc comment that
starts with `Modelled from the spec:`.
-/

/-- First value stored under key `k` in an insertion-ordered association
list (a JS object property read; `none` plays the role of `undefined`). -/
def lookupA {K V : Type} [DecidableEq K] : List (K × V) → K → Option V
  | [], _ => none
  | (k', v) :: rest, k => if k' = k then some v else lookupA rest k

/-- JS object property write `o[k] = v`: replaces the value in place if the
key is present (property order is kept), appends otherwise. -/
def setA {K V : Type} [DecidableEq K] : List (K × V) → K → V → List (K × V)
  | [], k, v => [(k, v)]
  | (k', v') :: rest, k, v =>
    if k' = k then (k', v) :: rest else (k', v') :: setA rest k v

namespace RuntimeModel

/-- Per-instance runtime state of the envelope template (`part_001`,
lines 41–47): the model, the `$inBatch` / `$inRecalculate` flags, the
`$batchPending` queue of deferred setter applications, and whether a
`$batchingStrategy` is installed.  The queued `{func, args}` records are
modelled as closed mutations `M → M`.  Two ghost counters observe the
behaviour without influencing it: `recalcRuns` counts entries into the body
of `recalculate`, `strategyCalls` counts invocations of the batching
strategy (the strategy itself is external user code, so only the fact of
its invocation is modelled). -/
structure Inst (M : Type) where
  model : M
  inBatch : Bool
  inRecalculate : Bool
  batchPending : List (M → M)
  batchingStrategy : Bool
  recalcRuns : Nat
  strategyCalls : Nat

mutual

/-- `recalculate` (`part_001` lines 49–61): a no-op while in a batch;
otherwise sets `$inRecalculate`, runs derivations and listeners (listeners
are modelled as absent, so the model is untouched), clears
`$inRecalculate`, and — if `$batchPending` is non-empty — calls
`$endBatch`. -/
def recalculate {M : Type} (st : Inst M) : Inst M :=
  if st.inBatch then st
  else
    if ({ st with inRecalculate := false, recalcRuns := st.recalcRuns + 1 } : Inst M).batchPending.isEmpty then
      { st with inRecalculate := false, recalcRuns := st.recalcRuns + 1 }
    else
      endBatch { st with inRecalculate := false, recalcRuns := st.recalcRuns + 1 }
termination_by 2 * st.batchPending.length + 2
decreasing_by simp_all [List.isEmpty_iff, ← List.length_pos] <;> omega

/-- `$endBatch` (`part_001` lines 123–134): clears `$inBatch`; if
`$batchPending` is non-empty, applies every queued setter in queue order,
empties the queue and runs `recalculate`. -/
def endBatch {M : Type} (st : Inst M) : Inst M :=
  if ({ st with inBatch := false } : Inst M).batchPending.isEmpty then
    { st with inBatch := false }
  else
    recalculate { st with inBatch := false,
                          model := st.batchPending.foldl (fun m f => f m) st.model,
                          batchPending := [] }
termination_by 2 * st.batchPending.length + 1
decreasing_by simp_all [List.isEmpty_iff, ← List.length_pos] <;> omega

end

/-- `$setter` (`part_001` lines 100–114): if `$inBatch || $inRecalculate ||
$batchingStrategy`, the call is pushed onto `$batchPending`, and — when
neither `$inBatch` nor `$inRecalculate` is set but a strategy is installed —
`$inBatch` is set and the strategy is invoked on the instance; otherwise the
underlying mutation is applied to the model and `recalculate` runs. -/
def setterCall {M : Type} (st : Inst M) (f : M → M) : Inst M :=
  if st.inBatch || st.inRecalculate || st.batchingStrategy then
    if (!st.inBatch && !st.inRecalculate) && st.batchingStrategy then
      { st with batchPending := st.batchPending ++ [f],
                inBatch := true,
                strategyCalls := st.strategyCalls + 1 }
    else
      { st with batchPending := st.batchPending ++ [f] }
  else
    recalculate { st with model := f st.model }

/-- A reified computation of a user function passed to
`recursiveMap` / `recursiveMapValues`: the body either returns a value or
calls its `loop` argument on some key and continues with the result
(`part_001` lines 281–287 pass `loopFunction.bind(...)` as that argument).
`Option W` is the type of a `res[key]` read: `none` is JS `undefined`. -/
inductive FComp (K W : Type) where
  | ret (w : W)
  | callLoop (k : K) (cont : Option W → FComp K W)

/-- Mutable state shared by one `recursiveMap(Values)` call: `resolved`
(the keys with `resolved[key] = true`), `res` (the result object, an
insertion-ordered association list), and a ghost log `calls` recording one
entry per invocation of the user function, in invocation order. -/
structure LState (K W : Type) where
  resolved : List K
  res : List (K × W)
  calls : List K

/-- Runs a reified user-function body, dispatching every `loop(k)` call to
`loop` and threading the state. -/
def runComp {K W : Type} (loop : K → LState K W → Option W × LState K W) :
    FComp K W → LState K W → W × LState K W
  | .ret w, st => (w, st)
  | .callLoop k cont, st =>
    runComp loop (cont (loop k st).1) (loop k st).2

/-- `loopFunction` (`part_001` lines 281–287): if `resolved[key]` is not
set, it is set, the user function runs on `(src[key], key, context, loop)`
(the invocation is logged in `calls`) and its result is stored in
`res[key]`; the call returns `res[key]` — which, for a re-entrant call on a
key still being computed, is the partial value recorded so far
(JS `undefined`, here `none`).  `fuel` bounds the recursion depth; the JS
code is unbounded, and every theorem below holds for every fuel. -/
def loopFunction {K V W C : Type} [DecidableEq K]
    (func : V → K → C → FComp K W) (src : K → V) (ctx : C) :
    Nat → K → LState K W → Option W × LState K W
  | 0, _, st => (none, st)
  | fuel + 1, key, st =>
    if key ∈ st.resolved then (lookupA st.res key, st)
    else
      let st1 : LState K W :=
        { st with resolved := st.resolved ++ [key], calls := st.calls ++ [key] }
      let r := runComp (loopFunction func src ctx fuel) (func (src key) key ctx) st1
      let st2 : LState K W := { r.2 with res := setA r.2.res key r.1 }
      (lookupA st2.res key, st2)

/-- `recursiveMapValues` (`part_001` lines 306–314): starts from empty
`res` and all-unmarked `resolved`, then calls `loopFunction` for every key
of `src` in key order and returns `res`.  `src[key]` reads are
`lookupA src` (a missing key reads as `undefined`, i.e. `none`). -/
def recursiveMapValues {K V W C : Type} [DecidableEq K]
    (func : Option V → K → C → FComp K W) (src : List (K × V)) (ctx : C)
    (fuel : Nat) : List (K × W) × LState K W :=
  let stF := (src.map Prod.fst).foldl
    (fun st k => (loopFunction func (lookupA src) ctx fuel k st).2) ⟨[], [], []⟩
  (stF.res, stF)

/-- `recursiveMap` (`part_001` lines 297–304): the array form; the keys are
the indices `0 … src.length - 1` and `src[key]` reads are `src.get?`. -/
def recursiveMap {V W C : Type}
    (func : Option V → Nat → C → FComp Nat W) (src : List V) (ctx : C)
    (fuel : Nat) : List (Nat × W) × LState Nat W :=
  let stF := (List.range src.length).foldl
    (fun st k => (loopFunction func src.get? ctx fuel k st).2) ⟨[], [], []⟩
  (stF.res, stF)

/-- Bookkeeping invariant of a `recursiveMap(Values)` state: the call log
has no duplicates, and every logged key is marked resolved. -/
def LInv {K W : Type} (st : LState K W) : Prop :=
  st.calls.Nodup ∧ ∀ k ∈ st.calls, k ∈ st.resolved

/-- A JS path key: a property name or an array index (`typeof` in
`ensurePath` distinguishes exactly these two shapes). -/
inductive PKey where
  | str (s : String)
  | num (n : Int)
deriving DecidableEq, Repr

/-- A JSON-like JS runtime value.  `undefined` is `undefined` (also the result
of reading a missing or unreadable property).  Objects are modelled as
insertion-ordered `PKey`-keyed association lists (JS coerces numeric object
keys to strings; the model keeps them distinct, which is irrelevant here
because a fixed path reads and writes the same keys on every run).
Numbers are integers (`NaN` and non-integral numbers are not modelled). -/
inductive JVal where
  | undefined
  | null
  | bool (b : Bool)
  | num (n : Int)
  | str (s : String)
  | arr (elems : List JVal)
  | obj (fields : List (PKey × JVal))

/-- JS truthiness of a modelled value. -/
def truthy : JVal → Bool
  | .undefined => false
  | .null => false
  | .bool b => b
  | .num n => n != 0
  | .str s => s != ""
  | .arr _ => true
  | .obj _ => true

/-- Property read `v[k]`.  Objects read their association list; arrays are
read at non-negative integer indices (out-of-range reads give
`undefined`).  Reads on primitives, and reads of string keys on arrays, are
modelled as `undefined`; a JS read on `undefined` would throw a `TypeError`
without mutating anything, which this total model renders as `undefined` —
the mutation-free outcome. -/
def getKey : JVal → PKey → JVal
  | .obj fs, k => (lookupA fs k).getD .undefined
  | .arr xs, .num n => if n < 0 then .undefined else (xs.get? n.toNat).getD .undefined
  | _, _ => .undefined

/-- Whether a value is a container (array or object); containers are
always truthy in JS. -/
def isContainer : JVal → Bool
  | .arr _ => true
  | .obj _ => true
  | _ => false

/-- Walks a value along a path of keys (the `reduce` of
`getAssignableObject`). -/
def getPath (m : JVal) (ps : List PKey) : JVal := ps.foldl getKey m

/-- `getAssignableObject(path, index)` (`part_001` lines 82–84):
`path.slice(0, index).reduce(function(agg, p) \x7breturn agg[p];\x7d, $model)`. -/
def getAssignableObject (m : JVal) (path : List PKey) (index : Nat) : JVal :=
  getPath m (path.take index)

/-- Writes `v` at the position addressed by the non-empty path `q` — the
functional rendering of the JS aliasing write
`getAssignableObject(path, n)[lastKey] = v`.  Returns `none`, leaving the
model unchanged, exactly when the addressed container cannot be reached or
written: in JS those executions read `undefined` along the way and then
either silently no-op (write on a primitive, negative array index) or throw
(write through `undefined`), in both cases without mutating the model.
Writing past the end of an array pads with `undefined` (JS holes). -/
def writePathOpt : JVal → List PKey → JVal → Option JVal
  | _, [], _ => none
  | m, [k], v =>
    match m, k with
    | .obj fs, k => some (.obj (setA fs k v))
    | .arr xs, .num n =>
      if n < 0 then none
      else if n.toNat < xs.length then some (.arr (xs.set n.toNat v))
      else some (.arr (xs ++ List.replicate (n.toNat - xs.length) .undefined ++ [v]))
    | _, _ => none
  | m, k :: k' :: ks, v =>
    match m, k with
    | .obj fs, k =>
      match lookupA fs k with
      | some child =>
        (writePathOpt child (k' :: ks) v).map (fun c => .obj (setA fs k c))
      | none => none
    | .arr xs, .num n =>
      if h1 : 0 ≤ n ∧ n.toNat < xs.length then
        (writePathOpt (xs.get ⟨n.toNat, h1.2⟩) (k' :: ks) v).map
          (fun c => .arr (xs.set n.toNat c))
      else none
    | _, _ => none

/-- The fresh container materialized by `ensurePath`:
`typeof path[path.length - 1] === 'number' ? [] : {}`. -/
def newContainer (path : List PKey) : JVal :=
  match path.getLast? with
  | some (.num _) => .arr []
  | _ => .obj []

/-- `ensurePath` (`part_001` lines 63–80): for a path of length ≥ 2, first
ensures the path's prefix (recursively, shortest first), then — unless
`assignable[lastObjectKey]` is truthy — materializes a fresh container at
`path.slice(0, path.length - 1)`: an array when the path's final element is
a number, an object otherwise.  Exceptions thrown by the JS code (reads and
writes through `undefined`) leave the model unchanged at the point they
occur, and every operation the exception would skip is itself a no-op on
the model, so the total model below reaches the same final state. -/
def ensurePath (m : JVal) (path : List PKey) : JVal :=
  if path.length < 2 then m
  else
    let m1 := if path.length > 2 then ensurePath m path.dropLast else m
    let lastObjectKey := path.getD (path.length - 2) (.str "")
    let assignable := getAssignableObject m1 path (path.length - 2)
    if truthy (getKey assignable lastObjectKey) then m1
    else
      (writePathOpt m1 (path.take (path.length - 1)) (newContainer path)).getD m1
termination_by path.length
decreasing_by simp [List.length_dropLast]; omega

end RuntimeModel

namespace CompilerModel

/-- `String.startsWith`, written on character lists so that concrete
instances reduce inside the kernel. -/
def strStartsWith (s p : String) : Bool := p.data.isPrefixOf s.data

/-- A primitive (scalar) JS value storable in the `primitives` table. -/
inductive CVal where
  | vnull
  | vundefined
  | vbool (b : Bool)
  | vint (n : Int)
  | vstr (s : String)
deriving DecidableEq, Repr

/-- `_.defaultTo(p, null)` as used by `addPrimitive`: lodash substitutes
the default for `undefined` and `null` (and `NaN`, which this model does
not represent). -/
def defaultToNull : CVal → CVal
  | .vundefined => .vnull
  | .vnull => .vnull
  | v => v

def encodeStr (s : String) : Nat :=
  s.data.foldl (fun a c => a * 256 + c.toNat + 1) 7

/-- Modelled from the spec: the repository's `expr-hash` module is not
under `src/`; per §4.1/§9 it computes a fixed structural hash of the
canonical serialization, stable across runs, with collisions possible.
The model serializes a value injectively into `Nat` and truncates to 32
bits, so distinct values can collide (e.g. `vint 0` and `vint (2^28)`). -/
def encodeCVal : CVal → Nat
  | .vnull => 0
  | .vundefined => 1
  | .vbool b => 2 + (if b then 1 else 0)
  | .vstr s => 8 * encodeStr s + 6
  | .vint n => if 0 ≤ n then 8 * n.toNat + 4 else 8 * n.natAbs + 5

/-- Hash strings are decimal digits prefixed with a letter; in particular,
a hash is never the empty string (the packer reserves `""` for the
metadata sentinel slot). -/
def toHashStr (n : Nat) : String := ⟨'h' :: (Nat.repr n).data⟩

def exprHashPrim (v : CVal) : String := toHashStr (encodeCVal v % 2 ^ 32)

mutual

/-- An expression-graph node (`Token`, `Expression`, or scalar literal),
per the Token/Expression contract of the spec's §3.  A `tok` carries
`$type`, `$tracked`, `$id`, `$invalidates`, its source tag, and the
path-invalidation map `$path` (condition expression → invalidated path).
An `expr` is the ordered sequence `expression[0] = head token`,
`expression[1..] = args`.  The argument and path sequences are the
in-block list types `NodeList` / `PathMap` (isomorphic to `List`, see
`NodeList.toList`), so that the structural hash below is a structural
recursion that reduces inside the kernel. -/
inductive ExprNode where
  | lit (v : CVal)
  | tok (typ : String) (tracked : Bool) (id : Int) (invalidates : Bool)
        (src : String) (pathMap : PathMap)
  | expr (head : ExprNode) (args : NodeList)

inductive NodeList where
  | nil
  | cons (head : ExprNode) (tail : NodeList)

inductive PathMap where
  | nil
  | cons (cond : ExprNode) (path : NodeList) (tail : PathMap)

end

def NodeList.toList : NodeList → List ExprNode
  | .nil => []
  | .cons e rest => e :: NodeList.toList rest

def PathMap.toList : PathMap → List (ExprNode × List ExprNode)
  | .nil => []
  | .cons c p rest => (c, p.toList) :: PathMap.toList rest

/-- Deterministic mixing of two naturals for the structural hash. -/
def mix (a b : Nat) : Nat := a * 1000003 + b + 1

def encInt (n : Int) : Nat := if 0 ≤ n then 2 * n.toNat else 2 * n.natAbs + 1

def bNat (b : Bool) : Nat := if b then 1 else 0

mutual

/-- Modelled from the spec: structural serialization of an expression node
for `exprHash` (see `encodeCVal`). -/
def encodeExpr : ExprNode → Nat
  | .lit v => 3 * encodeCVal v
  | .tok typ tr id inv src pm =>
    3 * mix (mix (mix (mix (mix (encodeStr typ) (bNat tr)) (encInt id))
        (bNat inv)) (encodeStr src)) (encodePathMap pm) + 1
  | .expr h args => 3 * mix (encodeExpr h) (encodeNodeList args) + 2

def encodeNodeList : NodeList → Nat
  | .nil => 1
  | .cons e rest => mix (encodeExpr e) (encodeNodeList rest)

def encodePathMap : PathMap → Nat
  | .nil => 1
  | .cons c p rest => mix (mix (encodeExpr c) (encodeNodeList p)) (encodePathMap rest)

end

def exprHashExpr (e : ExprNode) : String := toHashStr (encodeExpr e % 2 ^ 32)

/-- An `IntermediateReference`: `(table, key)` where the table is
`primitives` or `projections` (key = hash string) or `ints` (the integer
itself). -/
inductive IRef where
  | prim (h : String)
  | proj (h : String)
  | int (n : Int)
deriving DecidableEq, Repr

/-- An `IntermediateMetaData` record: the `$invalidates` flag plus the
retained `(condition-ref, step-refs)` list. -/
structure IMetaData where
  invalidates : Bool
  paths : List (IRef × List IRef)
deriving DecidableEq, Repr

/-- An `IntermediateProjection`. -/
structure IProjection where
  type : String
  metaData : String
  source : Option String
  args : List IRef
deriving DecidableEq, Repr

def encodeIRef : IRef → Nat
  | .prim h => 3 * encodeStr h
  | .proj h => 3 * encodeStr h + 1
  | .int n => 3 * encInt n + 2

def encodeIRefList (l : List IRef) : Nat :=
  l.foldr (fun r acc => mix (encodeIRef r) acc) 1

/-- Modelled from the spec: structural hash of an intermediate metadata
record (see `encodeCVal`). -/
def encodeIMetaData (md : IMetaData) : Nat :=
  mix (bNat md.invalidates)
    (md.paths.foldr (fun pr acc => mix (mix (encodeIRef pr.1) (encodeIRefList pr.2)) acc) 1)

def exprHashMD (md : IMetaData) : String := toHashStr (encodeIMetaData md % 2 ^ 32)

/-- Modelled from the spec: structural hash of a packed path (see
`encodeCVal`). -/
def encodePathInts (p : List Int) : Nat :=
  p.foldr (fun n acc => mix (encInt n) acc) 1

def exprHashPath (p : List Int) : String := toHashStr (encodePathInts p % 2 ^ 32)

/-- The trio of hash-consing tables owned by one `buildProjectionData`
call, as insertion-ordered association lists (JS object key order). -/
structure Tables where
  prims : List (String × CVal)
  projs : List (String × IProjection)
  mds : List (String × IMetaData)
deriving Repr

def containsKey {V : Type} (l : List (String × V)) (h : String) : Bool :=
  (lookupA l h).isSome

/-- `addPrimitive` (`vm-compiler.ts` lines 80–87): hashes
`_.defaultTo(p, null)` and inserts the value only when the hash is not yet
a key of the table; the hash is returned either way, and the stored value
is never compared with the incoming one. -/
def addPrimitive (prims : List (String × CVal)) (p : CVal) :
    String × List (String × CVal) :=
  let hash := exprHashPrim (defaultToNull p)
  if containsKey prims hash then (hash, prims)
  else (hash, prims ++ [(hash, p)])

/-- `addMetaData` (lines 89–96): same insert-if-absent discipline. -/
def addMetaData (mds : List (String × IMetaData)) (m : IMetaData) :
    String × List (String × IMetaData) :=
  let hash := exprHashMD m
  if containsKey mds hash then (hash, mds)
  else (hash, mds ++ [(hash, m)])

/-- `addPath` (lines 289–295): same insert-if-absent discipline. -/
def addPath (pbh : List (String × List Int)) (p : List Int) :
    String × List (String × List Int) :=
  let hash := exprHashPath p
  if containsKey pbh hash then (hash, pbh)
  else (hash, pbh ++ [(hash, p)])

/-- The spec's interning contract (§4.1), written out for comparison with
`addPrimitive`: on a hash hit the stored value must be compared with the
incoming one, and an `IntegrityError` raised when the two differ. -/
def addPrimitiveSpecChecked (prims : List (String × CVal)) (p : CVal) :
    Except String (String × List (String × CVal)) :=
  let hash := exprHashPrim (defaultToNull p)
  match lookupA prims hash with
  | some stored =>
    if stored = p then .ok (hash, prims) else .error ("IntegrityError")
  | none => .ok (hash, prims ++ [(hash, p)])

/-- JS `obj[hash] = value` on the projections table: keeps the insertion
position when the key already exists (overwriting the value), appends
otherwise. -/
def upsert {V : Type} (l : List (String × V)) (h : String) (v : V) :
    List (String × V) :=
  if containsKey l h then setA l h v else l ++ [(h, v)]

/-- `.$type` of a node; reading `$type` of an array or a scalar yields
`undefined` in JS, modelled as `""`. -/
def nodeType : ExprNode → String
  | .tok typ _ _ _ _ _ => typ
  | _ => ""

def isToken : ExprNode → Bool
  | .tok _ _ _ _ _ _ => true
  | _ => false

def isExpr : ExprNode → Bool
  | .expr _ _ => true
  | _ => false

def exprHead : ExprNode → ExprNode
  | .expr h _ => h
  | e => e

/-- `expression[k]` (`expression[0]` is the head token). -/
def exprItem : ExprNode → Nat → ExprNode
  | .expr h _, 0 => h
  | .expr _ args, n + 1 => args.toList.getD n (.lit .vundefined)
  | _, _ => .lit .vundefined

structure TokView where
  typ : String
  tracked : Bool
  id : Int
  invalidates : Bool
  src : String
  pathMap : List (ExprNode × List ExprNode)

/-- The `currentToken` of `generateProjectionFromExpression`: the node
itself when it is a `Token`, else `expression[0]`. -/
def tokView : ExprNode → TokView
  | .tok typ tr id inv src pm => ⟨typ, tr, id, inv, src, pm.toList⟩
  | .expr h _ => tokView h
  | .lit _ => ⟨"", false, 0, false, "", []⟩

def exprArgs : ExprNode → List ExprNode
  | .expr _ args => args.toList
  | _ => []

/-- A `SetterExpression`: `items[0]` is the setter-kind token (`set`,
`splice`, `push`); `items[1..]` are the path steps. -/
structure SetterExpr where
  items : List ExprNode

/-- Modelled from the spec: `pathMatches` lives in `expr-tagging`, which is
not under `src/`.  Per §4.2, a root path is kept when "some registered
setter touches a prefix of this path (tested by prefix match against each
setter's step sequence)": a setter step matches a path element when both
denote the same token kind or the same literal, a `key` / `argN`
placeholder step matching anything. -/
def stepMatches (pathStep setterStep : ExprNode) : Bool :=
  match setterStep with
  | .tok typ _ _ _ _ _ =>
    if typ = "key" || strStartsWith typ ("arg") then true
    else nodeType pathStep = typ
  | .lit v =>
    match pathStep with
    | .lit w => v = w
    | _ => false
  | _ => false

/-- Modelled from the spec: prefix match of an invalidated path against a
setter's step sequence (see `stepMatches`). -/
def pathMatches (path : List ExprNode) (setter : SetterExpr) : Bool :=
  (path.zip (setter.items.drop 1)).all fun pr => stepMatches pr.1 pr.2

/-- The compiler input: the getter map, the ordered `getRealGetters` names,
the setter map, and the options.  `tlIndex` models the inherited
`OptimizingCompiler.topLevelToIndex` (not under `src/`; per the spec it
maps a top-level name argument to its top-level index); `shortSource` is
modelled as the identity on source tags. -/
structure CompileInput where
  getters : List (String × ExprNode)
  realGetters : List String
  setters : List (String × SetterExpr)
  tlIndex : ExprNode → Int
  debug : Bool

/-- Modelled from the spec (§4.4 and design notes): `vm-rt` is not under
`src/`; a packed ref is a 32-bit word whose two most significant bits tag
inline ints (`00`), primitive indices (`01`) and projection indices
(`10`), the payload occupying the remaining 30 bits. -/
def canBeStoredInRef (n : Int) : Bool := 0 ≤ n && n < 2 ^ 30

/-- Modelled from the spec: primitive-index packing (tag `01`). -/
def packPrimitiveIndex (i : Int) : Int := 2 ^ 30 + i

/-- Modelled from the spec: projection-index packing (tag `10`). -/
def packProjectionIndex (i : Int) : Int := 2 ^ 31 + i

/-- Modelled from the spec: the metadata `Invalidates` flag bit. -/
def InvalidatesFlag : Int := 1

/-- `_.defaultTo` on argument nodes (the `range` manipulator): `undefined`
and `null` literals fall back to the default. -/
def defaultToNode (x d : ExprNode) : ExprNode :=
  match x with
  | .lit .vnull => d
  | .lit .vundefined => d
  | _ => x

/-- The kind-specific argument manipulators (`vm-compiler.ts` lines
162–186), applied to `expressionArgs`; unknown kinds are the identity. -/
def applyManipulator (inp : CompileInput) (e : ExprNode) : List ExprNode :=
  let tv := tokView e
  let args := exprArgs e
  match tv.typ with
  | "get" =>
    match args with
    | [prop, obj] =>
      [obj, if isToken obj && nodeType obj = "topLevel"
            then .lit (.vint (inp.tlIndex prop)) else prop]
    | _ => args
  | "trace" =>
    let inner := if args.length = 2 then args.headD (.lit .vundefined)
                 else (match e with | .expr h _ => h | _ => e)
    let ntv := tokView (exprHead inner)
    let innerSrc := if ntv.src ≠ "" then ntv.src else tv.src
    [args.headD (.lit .vundefined), .lit (.vstr ntv.typ), .lit (.vstr innerSrc)]
  | "and" =>
    (if tv.tracked then ExprNode.lit (.vint tv.id) else .lit (.vint (-1))) :: args
  | "or" =>
    (if tv.tracked then ExprNode.lit (.vint tv.id) else .lit (.vint (-1))) :: args
  | "ternary" =>
    (if tv.tracked then ExprNode.lit (.vint tv.id) else .lit (.vint (-1))) :: args
  | "range" =>
    [args.getD 0 (.lit .vundefined),
     defaultToNode (args.getD 1 (.lit .vundefined)) (.lit (.vint 0)),
     defaultToNode (args.getD 2 (.lit .vundefined)) (.lit (.vint 1))]
  | _ => args

/-- Serializes a list of nodes left-to-right, threading the tables (the
`_.map(list, serializeProjection)` pattern). -/
def serializeList (serialize : ExprNode → Tables → IRef × Tables) :
    List ExprNode → Tables → List IRef × Tables
  | [], tbl => ([], tbl)
  | e :: rest, tbl =>
    let r := serialize e tbl
    let rs := serializeList serialize rest r.2
    (r.1 :: rs.1, rs.2)

/-- The `pathsThatInvalidate.forEach` loop of
`generateProjectionFromExpression` (lines 108–144): serializes each
condition, then — depending on the shape of the invalidated path's root —
serializes and retains the (possibly rewritten) path, or discards it.  A
discarded path still leaves the serialized condition in the tables (the JS
code serializes the condition before branching). -/
def collectPaths (inp : CompileInput)
    (serialize : ExprNode → Tables → IRef × Tables) :
    List (ExprNode × List ExprNode) → Tables → List (IRef × List IRef) × Tables
  | [], tbl => ([], tbl)
  | (cond, ipath) :: rest, tbl =>
    let c := serialize cond tbl
    let head := ipath.headD (.lit .vnull)
    let step : Option (List ExprNode) :=
      if nodeType head = "context" then
        some (head :: .lit (.vint 0) :: ipath.drop 1)
      else if ipath.length > 1 && nodeType head = "topLevel" then
        some (head ::
          .lit (.vint (inp.tlIndex (ipath.getD 1 (.lit .vundefined)))) :: ipath.drop 2)
      else if (ipath.length > 1 && isExpr head && nodeType (exprItem head 0) = "get"
                && nodeType (exprItem head 2) = "topLevel")
              || (nodeType head = "root" && ipath.length > 1
                && (inp.setters.any fun pr => pathMatches ipath pr.2)) then
        some ipath
      else none
    match step with
    | some steps =>
      let refs := serializeList serialize steps c.2
      let rst := collectPaths inp serialize rest refs.2
      ((c.1, refs.1) :: rst.1, rst.2)
    | none =>
      collectPaths inp serialize rest c.2

/-- `generateProjectionFromExpression` (lines 98–200): collects the
invalidation paths, interns the operator kind and the metadata record —
note that the record always carries a `paths` list, an empty array being
truthy in JS — then serializes the manipulated argument list and returns
the intermediate projection.  The `serialize` parameter is the recursive
`serializeProjection`, tied at the call site with one unit less fuel. -/
def generateProjectionFromExpression (inp : CompileInput)
    (serialize : ExprNode → Tables → IRef × Tables)
    (e : ExprNode) (tbl : Tables) : IProjection × Tables :=
  let tv := tokView e
  let ps := collectPaths inp serialize tv.pathMap tbl
  let ty := addPrimitive ps.2.prims (.vstr tv.typ)
  let t2 : Tables := { ps.2 with prims := ty.2 }
  let md := addMetaData t2.mds ⟨tv.invalidates, ps.1⟩
  let t3 : Tables := { t2 with mds := md.2 }
  let ar := serializeList serialize (applyManipulator inp e) t3
  (⟨ty.1, md.1, if inp.debug then some tv.src else none, ar.1⟩, ar.2)

/-- `serializeProjection` (lines 202–226): inline-storable integers become
`ints` refs; `null` / `undefined` / scalars become interned primitives;
tokens and expressions are compiled by `generateProjectionFromExpression`
and stored in the projection table under their structural hash (the table
is consulted first; after generation the projection is stored at that
hash).  `fuel` bounds the recursion of the unbounded JS code. -/
def serializeProjection (inp : CompileInput) :
    Nat → ExprNode → Tables → IRef × Tables
  | 0, _, tbl => (.int 0, tbl)
  | fuel + 1, e, tbl =>
    match e with
    | .lit (.vint n) =>
      if canBeStoredInRef n then (.int n, tbl)
      else
        let r := addPrimitive tbl.prims (.vint n)
        (.prim r.1, { tbl with prims := r.2 })
    | .lit v =>
      let r := addPrimitive tbl.prims v
      (.prim r.1, { tbl with prims := r.2 })
    | _ =>
      let hash := exprHashExpr e
      if containsKey tbl.projs hash then (.proj hash, tbl)
      else
        let g := generateProjectionFromExpression inp
          (serializeProjection inp fuel) e tbl
        (.proj hash, { g.2 with projs := upsert g.2.projs hash g.1 })

/-- `serializeSetter` (lines 251–272): `numTokens` counts the `Token`
elements of the whole setter expression minus one; each `key` step is
replaced by a synthetic `arg{numTokens-1}` token before serialization; the
setter kind and name are interned afterwards. -/
def serializeSetter (inp : CompileInput) (fuel : Nat) (tbl : Tables)
    (setter : SetterExpr) (name : String) :
    (String × String × List IRef × Int) × Tables :=
  let setterType := nodeType (setter.items.headD (.lit .vnull))
  let numTokens : Int := ((setter.items.filter isToken).length : Int) - 1
  let sp := serializeList (serializeProjection inp fuel)
    ((setter.items.drop 1).map fun token =>
      if isToken token && nodeType token = "key" then
        ExprNode.tok (("arg") ++ toString (numTokens - 1)) false 0 false "" .nil
      else token) tbl
  let ty := addPrimitive sp.2.prims (.vstr setterType)
  let t2 : Tables := { sp.2 with prims := ty.2 }
  let nm := addPrimitive t2.prims (.vstr name)
  let t3 : Tables := { t2 with prims := nm.2 }
  ((ty.1, nm.1, sp.1, numTokens), t3)

/-- JS `Array.prototype.indexOf`: first index of the element, `-1` when
absent. -/
def jsIndexOf {α : Type} [DecidableEq α] : List α → α → Int
  | [], _ => -1
  | a :: rest, x =>
    if a = x then 0
    else
      let r := jsIndexOf rest x
      if r < 0 then -1 else r + 1

/-- `packRef` (lines 228–231). -/
def packRef (primHashes projHashes : List String) : IRef → Int
  | .int n => n
  | .prim h => packPrimitiveIndex (jsIndexOf primHashes h)
  | .proj h => packProjectionIndex (jsIndexOf projHashes h)

/-- `packProjection` (lines 233–239): `[type-index, metadata-index, arg
refs…]`; the metadata index is `0` when the metadata hash is falsy (the
empty string), else its index in `mdHashes` (whose slot 0 is `""`). -/
def packProjection (primHashes projHashes mdHashes : List String)
    (p : IProjection) : List Int :=
  jsIndexOf primHashes p.type ::
    (if p.metaData = "" then 0 else jsIndexOf mdHashes p.metaData) ::
    p.args.map (packRef primHashes projHashes)

/-- `packMetaData` (lines 297–307): packs the flag word and interns each
packed path into the paths table, returning the flags plus the path
hashes. -/
def packMetaData (primHashes projHashes : List String)
    (md : IMetaData) (pbh : List (String × List Int)) :
    (Int × List String) × List (String × List Int) :=
  let r := md.paths.foldl
    (fun acc pr =>
      let packed := packRef primHashes projHashes pr.1 ::
        pr.2.map (packRef primHashes projHashes)
      let a := addPath acc.2 packed
      (acc.1 ++ [a.1], a.2))
    (([] : List String), pbh)
  ((if md.invalidates then InvalidatesFlag else 0, r.1), r.2)

/-- The packed compiler output artifact (§6), field order as in the
source. -/
structure ProjectionData where
  getters : List (List Int)
  primitives : List CVal
  topLevelNames : List Int
  topLevelProjections : List Int
  metaData : List (List Int)
  paths : List (List Int)
  setters : List (List Int)
  sources : List (Option String)
deriving DecidableEq, Repr

/-- `buildProjectionData` (lines 69–343): serializes the real getters (in
order), then the setters, threading the three hash-consing tables, and
packs everything into dense integer-indexed arrays.  `mdHashes` receives
the `""` sentinel slot at index 0, and the packed `metaData` receives the
sentinel record `(0, [])` at index 0. -/
def buildProjectionData (inp : CompileInput) (fuel : Nat) : ProjectionData :=
  let t0 : Tables := ⟨[], [], []⟩
  let tls := inp.realGetters.foldl
    (fun acc name =>
      let pr := serializeProjection inp fuel
        ((lookupA inp.getters name).getD (.lit .vundefined)) acc.2
      let nm :=
        if inp.debug || !(strStartsWith name ("$")) then
          let a := addPrimitive pr.2.prims (.vstr name)
          (some a.1, ({ pr.2 with prims := a.2 } : Tables))
        else (none, pr.2)
      (acc.1 ++ [(nm.1, pr.1)], nm.2))
    (([] : List (Option String × IRef)), t0)
  let sts := inp.setters.foldl
    (fun acc pr =>
      let s := serializeSetter inp fuel acc.2 pr.2 pr.1
      (acc.1 ++ [s.1], s.2))
    (([] : List (String × String × List IRef × Int)), tls.2)
  let tblF := sts.2
  let projectionHashes := tblF.projs.map Prod.fst
  let sources :=
    if inp.debug then
      tblF.projs.map
        (fun pr => (pr.2.source).bind (fun s => if s = "" then none else some s))
    else []
  let primitiveHashes := tblF.prims.map Prod.fst
  let mdHashes := "" :: tblF.mds.map Prod.fst
  let getters := tblF.projs.map
    (fun pr => packProjection primitiveHashes projectionHashes mdHashes pr.2)
  let primitives := tblF.prims.map Prod.snd
  let mdp := tblF.mds.foldl
    (fun acc pr =>
      let r := packMetaData primitiveHashes projectionHashes pr.2 acc.2
      (acc.1 ++ [r.1], r.2))
    (([] : List (Int × List String)), ([] : List (String × List Int)))
  let metaData2 : List (Int × List String) := (0, []) :: mdp.1
  let pathHashes := mdp.2.map Prod.fst
  let metaData := metaData2.map
    (fun pr => pr.1 :: pr.2.map (jsIndexOf pathHashes))
  let setters := sts.1.map
    (fun q => jsIndexOf primitiveHashes q.1 ::
      jsIndexOf primitiveHashes q.2.1 :: q.2.2.2 ::
      q.2.2.1.map (packRef primitiveHashes projectionHashes))
  let topLevelProjections := tls.1.map
    (fun pr =>
      match pr.2 with
      | .proj h => jsIndexOf projectionHashes h
      | .prim h => jsIndexOf projectionHashes h
      | .int _ => -1)
  let topLevelNames := tls.1.map
    (fun pr => match pr.1 with
      | some h => jsIndexOf primitiveHashes h
      | none => -1)
  ⟨getters, primitives, topLevelNames, topLevelProjections, metaData,
    mdp.2.map Prod.snd, setters, sources⟩

/-- Invariant of the hash-consing tables: every interned projection
carries a non-empty metadata hash (`generateProjectionFromExpression`
always interns a metadata record, because the `paths` array is truthy in
JS even when empty). -/
def MdInv (tbl : Tables) : Prop :=
  ∀ pr ∈ tbl.projs, (pr : String × IProjection).2.metaData ≠ ""

end CompilerModel

namespace RuntimeModelThms

open RuntimeModel

theorem runComp_preserves {K W : Type}
    (loop : K → LState K W → Option W × LState K W) (P : LState K W → Prop)
    (hloop : ∀ k st, P st → P (loop k st).2) :
    ∀ (comp : FComp K W) (st : LState K W), P st → P (runComp loop comp st).2 := by
  intro comp
  induction comp with
  | ret w => intro st h; simpa [runComp] using h
  | callLoop k cont ih =>
    intro st h
    simp only [runComp]
    exact ih _ _ (hloop k st h)

theorem loopFunction_preserves_LInv {K V W C : Type} [DecidableEq K]
    (func : V → K → C → FComp K W) (src : K → V) (ctx : C) :
    ∀ (fuel : Nat) (key : K) (st : LState K W),
      LInv st → LInv (loopFunction func src ctx fuel key st).2 := by
  intro fuel
  induction fuel with
  | zero => intro key st h; simpa [loopFunction] using h
  | succ fuel ih =>
    intro key st h
    by_cases hk : key ∈ st.resolved
    · simpa [loopFunction, hk] using h
    · have h1 : LInv ({ st with resolved := st.resolved ++ [key],
                                calls := st.calls ++ [key] } : LState K W) := by
        obtain ⟨hnd, hsub⟩ := h
        refine ⟨?_, ?_⟩
        · refine List.Nodup.append hnd (List.nodup_singleton key) ?_
          intro a ha hb
          rw [List.mem_singleton] at hb
          subst hb
          exact hk (hsub a ha)
        · intro k hkmem
          rcases List.mem_append.mp hkmem with h' | h'
          · exact List.mem_append_left _ (hsub k h')
          · exact List.mem_append_right _ h'
      have h2 := runComp_preserves (loopFunction func src ctx fuel) LInv
        (fun k st hst => ih k st hst) (func (src key) key ctx) _ h1
      simp only [loopFunction, hk, if_neg]
      exact h2

theorem foldl_preserves {α σ : Type} (P : σ → Prop) (f : σ → α → σ)
    (hf : ∀ s a, P s → P (f s a)) :
    ∀ (l : List α) (s : σ), P s → P (l.foldl f s) := by
  intro l
  induction l with
  | nil => intro s h; simpa using h
  | cons a l ih => intro s h; exact ih _ (hf s a h)

end RuntimeModelThms

namespace TableThms

theorem lookupA_append_of_none {K V : Type} [DecidableEq K]
    (t1 t2 : List (K × V)) (k : K) (h : lookupA t1 k = none) :
    lookupA (t1 ++ t2) k = lookupA t2 k := by
  induction t1 with
  | nil => simp
  | cons a rest ih =>
    obtain ⟨k', v⟩ := a
    rw [List.cons_append]
    by_cases hk : k' = k
    · simp [lookupA, hk] at h
    · simp only [lookupA, if_neg hk] at h ⊢
      exact ih h

theorem lookupA_append_of_some {K V : Type} [DecidableEq K]
    (t1 t2 : List (K × V)) (k : K) (v : V) (h : lookupA t1 k = some v) :
    lookupA (t1 ++ t2) k = some v := by
  induction t1 with
  | nil => simp [lookupA] at h
  | cons a rest ih =>
    obtain ⟨k', w⟩ := a
    rw [List.cons_append]
    by_cases hk : k' = k
    · simp only [lookupA, if_pos hk] at h ⊢
      exact h
    · simp only [lookupA, if_neg hk] at h ⊢
      exact ih h

theorem lookupA_append_self {K V : Type} [DecidableEq K]
    (t : List (K × V)) (k : K) (v : V) (h : lookupA t k = none) :
    lookupA (t ++ [(k, v)]) k = some v := by
  rw [lookupA_append_of_none t _ k h]
  simp [lookupA]

theorem containsKey_append_self {V : Type}
    (t : List (String × V)) (k : String) (v : V) :
    CompilerModel.containsKey (t ++ [(k, v)]) k = true := by
  unfold CompilerModel.containsKey
  cases h : lookupA t k with
  | none => rw [lookupA_append_self t k v h]; rfl
  | some w => rw [lookupA_append_of_some t _ k w h]; rfl

end TableThms

/-- C1 (counterexample): the claim says that on a structural-hash
collision the compiler verifies equality of the stored value with the new
one and fails with `IntegrityError` on mismatch.  At the concrete
collision below — `vint 0` and `vint (2^29)` share the same 32-bit
structural hash — the spec's checked interning reports `IntegrityError`,
while the code's `addPrimitive` succeeds, returns the existing slot's
hash, and leaves the first value stored, never comparing the values. -/
theorem c1_counterexample :
    CompilerModel.addPrimitiveSpecChecked
        (CompilerModel.addPrimitive [] (.vint 0)).2 (.vint (2 ^ 29))
      = .error ("IntegrityError")
    ∧ CompilerModel.addPrimitive
        (CompilerModel.addPrimitive [] (.vint 0)).2 (.vint (2 ^ 29))
      = ((CompilerModel.addPrimitive [] (.vint 0)).1,
         (CompilerModel.addPrimitive [] (.vint 0)).2)
    ∧ lookupA (CompilerModel.addPrimitive [] (.vint 0)).2
        (CompilerModel.exprHashPrim (.vint (2 ^ 29)))
      = some (.vint 0)
    ∧ CompilerModel.CVal.vint 0 ≠ .vint (2 ^ 29) :=
  ⟨by rfl, by rfl, by rfl, by decide⟩

/-- C1 (amended): the hash-consing tables perform no equality
verification: whenever the incoming value's hash is already a key, each of
`addPrimitive`, `addMetaData` and `addPath` returns that hash and leaves
the table unchanged — first-write-wins, and no `IntegrityError` exists in
the compiler. -/
theorem c1_amended_silent_reuse :
    (∀ (t : List (String × CompilerModel.CVal)) (p : CompilerModel.CVal),
      CompilerModel.containsKey t
          (CompilerModel.exprHashPrim (CompilerModel.defaultToNull p)) = true →
        CompilerModel.addPrimitive t p
          = (CompilerModel.exprHashPrim (CompilerModel.defaultToNull p), t))
    ∧ (∀ (t : List (String × CompilerModel.IMetaData)) (m : CompilerModel.IMetaData),
      CompilerModel.containsKey t (CompilerModel.exprHashMD m) = true →
        CompilerModel.addMetaData t m = (CompilerModel.exprHashMD m, t))
    ∧ (∀ (t : List (String × List Int)) (p : List Int),
      CompilerModel.containsKey t (CompilerModel.exprHashPath p) = true →
        CompilerModel.addPath t p = (CompilerModel.exprHashPath p, t)) := by
  refine ⟨fun t p h => ?_, fun t m h => ?_, fun t p h => ?_⟩ <;>
    simp [CompilerModel.addPrimitive, CompilerModel.addMetaData,
      CompilerModel.addPath, h]

/-- C1 (witness): applying the amended theorem at the concrete collision:
interning `vint (2^29)` after `vint 0` silently reuses the slot. -/
theorem c1_amended_silent_reuse_witness :
    CompilerModel.addPrimitive
        (CompilerModel.addPrimitive [] (.vint 0)).2 (.vint (2 ^ 29))
      = (CompilerModel.exprHashPrim
           (CompilerModel.defaultToNull (.vint (2 ^ 29))),
         (CompilerModel.addPrimitive [] (.vint 0)).2) :=
  c1_amended_silent_reuse.1 _ _ (by decide)

/-- C10 (confirmed): `addPrimitive` hashes `_.defaultTo(p, null)`, so
`undefined` hashes as `null`: both intern to the same hash; once either
has been interned the other returns the same slot with the table
unchanged, and the stored entry is whichever value was interned first —
the primitives table never holds distinct entries for `undefined` and
`null`. -/
theorem c10_null_undef_same_slot :
    ∀ t : List (String × CompilerModel.CVal),
      (CompilerModel.addPrimitive t .vundefined).1
        = (CompilerModel.addPrimitive t .vnull).1
      ∧ CompilerModel.addPrimitive (CompilerModel.addPrimitive t .vnull).2 .vundefined
          = ((CompilerModel.addPrimitive t .vnull).1,
             (CompilerModel.addPrimitive t .vnull).2)
      ∧ CompilerModel.addPrimitive (CompilerModel.addPrimitive t .vundefined).2 .vnull
          = ((CompilerModel.addPrimitive t .vundefined).1,
             (CompilerModel.addPrimitive t .vundefined).2)
      ∧ (CompilerModel.containsKey t (CompilerModel.exprHashPrim .vnull) = false →
          lookupA (CompilerModel.addPrimitive t .vnull).2
              (CompilerModel.exprHashPrim .vnull) = some .vnull
          ∧ lookupA (CompilerModel.addPrimitive t .vundefined).2
              (CompilerModel.exprHashPrim .vnull) = some .vundefined) := by
  intro t
  have hsame : CompilerModel.exprHashPrim (CompilerModel.defaultToNull .vundefined)
      = CompilerModel.exprHashPrim (CompilerModel.defaultToNull .vnull) := rfl
  by_cases hc : CompilerModel.containsKey t (CompilerModel.exprHashPrim .vnull) = true
  · refine ⟨?_, ?_, ?_, fun hfalse => absurd hc (by simp [hfalse])⟩ <;>
      simp [CompilerModel.addPrimitive, CompilerModel.defaultToNull, hc]
  · have hnone : lookupA t (CompilerModel.exprHashPrim .vnull) = none := by
      unfold CompilerModel.containsKey at hc
      cases h : lookupA t (CompilerModel.exprHashPrim .vnull) with
      | none => rfl
      | some w => rw [h] at hc; simp at hc
    have hc' : CompilerModel.containsKey t (CompilerModel.exprHashPrim .vnull) = false := by
      simpa using hc
    refine ⟨?_, ?_, ?_, fun _ => ?_⟩
    · simp [CompilerModel.addPrimitive, CompilerModel.defaultToNull, hc']
    · simp [CompilerModel.addPrimitive, CompilerModel.defaultToNull, hc',
        TableThms.containsKey_append_self]
    · simp [CompilerModel.addPrimitive, CompilerModel.defaultToNull, hc',
        TableThms.containsKey_append_self]
    · constructor
      · simp [CompilerModel.addPrimitive, CompilerModel.defaultToNull, hc',
          TableThms.lookupA_append_self _ _ _ hnone]
      · simp [CompilerModel.addPrimitive, CompilerModel.defaultToNull, hc',
          TableThms.lookupA_append_self _ _ _ hnone]

/-- C10 (witness): applying the theorem at the empty table: `null` then
`undefined` hash identically, the second call reuses the slot, and the
stored entry is the first value. -/
theorem c10_null_undef_same_slot_witness :
    (CompilerModel.addPrimitive ([] : List (String × CompilerModel.CVal)) .vundefined).1
      = (CompilerModel.addPrimitive ([] : List (String × CompilerModel.CVal)) .vnull).1
    ∧ lookupA (CompilerModel.addPrimitive ([] : List (String × CompilerModel.CVal)) .vnull).2
        (CompilerModel.exprHashPrim .vnull) = some .vnull :=
  ⟨(c10_null_undef_same_slot []).1, ((c10_null_undef_same_slot []).2.2.2 (by decide)).1⟩

/-- C9 (confirmed): compilation is a deterministic function of its input —
the embedded compiler is a pure function of the expression graph, setter
map and options, so two runs on equal inputs produce identical
`ProjectionData` (JS object iteration order, the only ordering the source
relies on, is insertion order and is modelled by the ordered tables). -/
theorem c9_deterministic (inp1 inp2 : CompilerModel.CompileInput) (fuel : Nat)
    (h : inp1 = inp2) :
    CompilerModel.buildProjectionData inp1 fuel
      = CompilerModel.buildProjectionData inp2 fuel := by
  rw [h]

/-- C9 (witness): at a concrete compile input. -/
theorem c9_deterministic_witness :
    CompilerModel.buildProjectionData
        ⟨[("a", .tok "size" false 0 false "" .nil)], ["a"], [], fun _ => -1, false⟩ 4
      = CompilerModel.buildProjectionData
        ⟨[("a", .tok "size" false 0 false "" .nil)], ["a"], [], fun _ => -1, false⟩ 4 :=
  c9_deterministic _ _ 4 rfl

namespace C4Thms

open RuntimeModel

theorem truthy_of_isContainer (v : JVal) (h : isContainer v = true) :
    truthy v = true := by
  cases v <;> simp_all [isContainer, truthy]

theorem lookupA_setA_self {K V : Type} [DecidableEq K] :
    ∀ (l : List (K × V)) (k : K) (v : V), lookupA (setA l k v) k = some v := by
  intro l k v
  induction l with
  | nil => simp [setA, lookupA]
  | cons a rest ih =>
    obtain ⟨k', v'⟩ := a
    by_cases hk : k' = k
    · simp [setA, lookupA, hk]
    · simp only [setA, if_neg hk, lookupA, ih]

theorem get?_set_self {α : Type} :
    ∀ (xs : List α) (i : Nat) (v : α), i < xs.length →
      (xs.set i v).get? i = some v := by
  intro xs
  induction xs with
  | nil => intro i v h; simp at h
  | cons a rest ih =>
    intro i v h
    cases i with
    | zero => simp
    | succ j =>
      simp only [List.set_cons_succ, List.get?_cons_succ]
      exact ih j v (by simpa using h)

theorem get?_append_length {α : Type} :
    ∀ (l : List α) (a : α), (l ++ [a]).get? l.length = some a := by
  intro l a
  induction l with
  | nil => simp
  | cons b rest ih => simpa using ih

theorem getPath_append (m : JVal) (ps : List PKey) (k : PKey) :
    getPath m (ps ++ [k]) = getKey (getPath m ps) k := by
  simp [getPath]

theorem getPath_cons (m : JVal) (k : PKey) (ps : List PKey) :
    getPath m (k :: ps) = getPath (getKey m k) ps := rfl

theorem take_succ_getD {α : Type} :
    ∀ (l : List α) (i : Nat) (d : α), i < l.length →
      l.take (i + 1) = l.take i ++ [l.getD i d] := by
  intro l
  induction l with
  | nil => intro i d h; simp at h
  | cons a rest ih =>
    intro i d h
    cases i with
    | zero => simp [List.getD]
    | succ j =>
      simp only [List.take_succ_cons, List.getD_cons_succ]
      rw [ih j d (by simpa using h)]
      simp

theorem take_dropLast {α : Type} (l : List α) (i : Nat)
    (h : i ≤ l.length - 1) : l.dropLast.take i = l.take i := by
  rw [List.dropLast_eq_take, List.take_take]
  congr 1
  omega

theorem writePathOpt_some :
    ∀ (q : List PKey) (m m' v : JVal), writePathOpt m q v = some m' →
      getPath m' q = v
      ∧ ∀ i, i < q.length → isContainer (getPath m' (q.take i)) = true := by
  intro q
  induction q with
  | nil =>
    intro m m' v hw
    simp [writePathOpt] at hw
  | cons k q' ih =>
    intro m m' v hw
    cases q' with
    | nil =>
      cases m with
      | obj fs =>
        cases k with
        | str s =>
          simp only [writePathOpt, Option.some.injEq] at hw
          subst hw
          refine ⟨?_, ?_⟩
          · simp [getPath, getKey, lookupA_setA_self]
          · intro i hi
            cases i with
            | zero => simp [getPath, isContainer]
            | succ j => simp at hi
        | num n =>
          simp only [writePathOpt, Option.some.injEq] at hw
          subst hw
          refine ⟨?_, ?_⟩
          · simp [getPath, getKey, lookupA_setA_self]
          · intro i hi
            cases i with
            | zero => simp [getPath, isContainer]
            | succ j => simp at hi
      | arr xs =>
        cases k with
        | str s => simp [writePathOpt] at hw
        | num n =>
          simp only [writePathOpt] at hw
          by_cases hneg : n < 0
          · simp [hneg] at hw
          · rw [if_neg hneg] at hw
            by_cases hin : n.toNat < xs.length
            · rw [if_pos hin] at hw
              simp only [Option.some.injEq] at hw
              subst hw
              refine ⟨?_, ?_⟩
              · simp only [getPath, List.foldl_cons, List.foldl_nil, getKey,
                  if_neg hneg]
                rw [get?_set_self xs n.toNat v hin]
                rfl
              · intro i hi
                cases i with
                | zero => simp [getPath, isContainer]
                | succ j => simp at hi
            · rw [if_neg hin] at hw
              simp only [Option.some.injEq] at hw
              subst hw
              refine ⟨?_, ?_⟩
              · simp only [getPath, List.foldl_cons, List.foldl_nil, getKey,
                  if_neg hneg]
                have hlen : (xs ++ List.replicate (n.toNat - xs.length) JVal.undefined).length
                    = n.toNat := by
                  simp [List.length_append, List.length_replicate]
                  omega
                have hget :
                    (xs ++ List.replicate (n.toNat - xs.length) JVal.undefined
                      ++ [v]).get? n.toNat = some v := by
                  nth_rewrite 2 [← hlen]
                  exact get?_append_length _ v
                rw [hget]
                rfl
              · intro i hi
                cases i with
                | zero => simp [getPath, isContainer]
                | succ j => simp at hi
      | undefined => simp [writePathOpt] at hw
      | null => simp [writePathOpt] at hw
      | bool b => simp [writePathOpt] at hw
      | num n => simp [writePathOpt] at hw
      | str s => simp [writePathOpt] at hw
    | cons k'' ks =>
      cases m with
      | obj fs =>
        simp only [writePathOpt] at hw
        cases hlk : lookupA fs k with
        | none => rw [hlk] at hw; simp at hw
        | some child =>
          rw [hlk] at hw
          rw [Option.map_eq_some'] at hw
          obtain ⟨c', hc', hm'⟩ := hw
          subst hm'
          have hih := ih child c' v hc'
          refine ⟨?_, ?_⟩
          · rw [getPath_cons]
            have hkey : getKey (.obj (setA fs k c')) k = c' := by
              simp [getKey, lookupA_setA_self]
            rw [hkey]
            exact hih.1
          · intro i hi
            cases i with
            | zero => simp [getPath, isContainer]
            | succ j =>
              simp only [List.take_succ_cons]
              rw [getPath_cons]
              have hkey : getKey (.obj (setA fs k c')) k = c' := by
                simp [getKey, lookupA_setA_self]
              rw [hkey]
              exact hih.2 j (by simpa using hi)
      | arr xs =>
        cases k with
        | str s => simp [writePathOpt] at hw
        | num n =>
          simp only [writePathOpt] at hw
          by_cases h1 : 0 ≤ n ∧ n.toNat < xs.length
          · rw [dif_pos h1] at hw
            rw [Option.map_eq_some'] at hw
            obtain ⟨c', hc', hm'⟩ := hw
            subst hm'
            have hih := ih _ c' v hc'
            have hneg : ¬ n < 0 := by omega
            have hkey : getKey (.arr (xs.set n.toNat c')) (.num n) = c' := by
              simp only [getKey, if_neg hneg]
              rw [get?_set_self xs n.toNat c' h1.2]
              rfl
            refine ⟨?_, ?_⟩
            · rw [getPath_cons, hkey]
              exact hih.1
            · intro i hi
              cases i with
              | zero => simp [getPath, isContainer]
              | succ j =>
                simp only [List.take_succ_cons]
                rw [getPath_cons, hkey]
                exact hih.2 j (by simpa using hi)
          · rw [dif_neg h1] at hw
            simp at hw
      | undefined => simp [writePathOpt] at hw
      | null => simp [writePathOpt] at hw
      | bool b => simp [writePathOpt] at hw
      | num n => simp [writePathOpt] at hw
      | str s => simp [writePathOpt] at hw

theorem ensurePath_unfold (m : JVal) (path : List PKey)
    (h2 : ¬ path.length < 2) :
    ensurePath m path =
      (if truthy (getKey
            (getAssignableObject
              (if path.length > 2 then ensurePath m path.dropLast else m)
              path (path.length - 2))
            (path.getD (path.length - 2) (.str ""))) = true
       then (if path.length > 2 then ensurePath m path.dropLast else m)
       else
         (writePathOpt
            (if path.length > 2 then ensurePath m path.dropLast else m)
            (path.take (path.length - 1))
            (newContainer path)).getD
           (if path.length > 2 then ensurePath m path.dropLast else m)) := by
  conv_lhs => rw [ensurePath]
  rw [if_neg h2]

theorem ensure_noop :
    ∀ (n : Nat) (path : List PKey), path.length ≤ n → ∀ (m : JVal),
      (∀ i, 1 ≤ i → i < path.length →
        truthy (getPath m (path.take i)) = true) →
      ensurePath m path = m := by
  intro n
  induction n with
  | zero =>
    intro path hlen m hch
    have h2 : path.length < 2 := by omega
    rw [ensurePath, if_pos h2]
  | succ n ih =>
    intro path hlen m hch
    by_cases h2 : path.length < 2
    · rw [ensurePath, if_pos h2]
    · rw [ensurePath_unfold m path h2]
      have hm1 : (if path.length > 2 then ensurePath m path.dropLast else m)
          = m := by
        by_cases h3 : path.length > 2
        · rw [if_pos h3]
          refine ih path.dropLast (by simp [List.length_dropLast]; omega) m ?_
          intro i hi1 hi2
          simp only [List.length_dropLast] at hi2
          rw [take_dropLast path i (by omega)]
          exact hch i hi1 (by omega)
        · rw [if_neg h3]
      rw [hm1]
      have hkey : getKey (getAssignableObject m path (path.length - 2))
          (path.getD (path.length - 2) (.str ""))
          = getPath m (path.take (path.length - 1)) := by
        have h21 : path.length - 1 = (path.length - 2) + 1 := by omega
        simp only [getAssignableObject]
        rw [← getPath_append]
        rw [← take_succ_getD path (path.length - 2) (.str "") (by omega)]
        rw [← h21]
      rw [hkey]
      rw [if_pos (hch (path.length - 1) (by omega) (by omega))]

theorem ensurePath_idem_aux :
    ∀ (n : Nat) (path : List PKey), path.length ≤ n → ∀ (m : JVal),
      ensurePath (ensurePath m path) path = ensurePath m path := by
  intro n
  induction n with
  | zero =>
    intro path hlen m
    have h2 : path.length < 2 := by omega
    have hid : ∀ mm : JVal, ensurePath mm path = mm := fun mm => by
      rw [ensurePath, if_pos h2]
    rw [hid, hid]
  | succ n ih =>
    intro path hlen m
    by_cases h2 : path.length < 2
    · have hid : ∀ mm : JVal, ensurePath mm path = mm := fun mm => by
        rw [ensurePath, if_pos h2]
      rw [hid, hid]
    · have hM1' : ∀ X : JVal, ensurePath X path.dropLast = X →
          (if path.length > 2 then ensurePath X path.dropLast else X) = X := by
        intro X hX
        by_cases h3 : path.length > 2
        · rw [if_pos h3]; exact hX
        · rw [if_neg h3]
      rw [ensurePath_unfold m path h2]
      by_cases hC : truthy (getKey
          (getAssignableObject
            (if path.length > 2 then ensurePath m path.dropLast else m)
            path (path.length - 2))
          (path.getD (path.length - 2) (.str ""))) = true
      · rw [if_pos hC]
        -- the first run changed nothing beyond its prefix pass
        have hpref : ensurePath
            (if path.length > 2 then ensurePath m path.dropLast else m)
            path.dropLast
            = (if path.length > 2 then ensurePath m path.dropLast else m) := by
          by_cases h3 : path.length > 2
          · rw [if_pos h3]
            exact ih path.dropLast (by simp [List.length_dropLast]; omega) m
          · have hlt : path.dropLast.length < 2 := by
              simp [List.length_dropLast]; omega
            rw [if_neg h3, ensurePath, if_pos hlt]
        rw [ensurePath_unfold _ path h2, hM1' _ hpref, if_pos hC]
      · rw [if_neg hC]
        cases hw : writePathOpt
            (if path.length > 2 then ensurePath m path.dropLast else m)
            (path.take (path.length - 1)) (newContainer path) with
        | none =>
          simp only [Option.getD_none]
          have hpref : ensurePath
              (if path.length > 2 then ensurePath m path.dropLast else m)
              path.dropLast
              = (if path.length > 2 then ensurePath m path.dropLast else m) := by
            by_cases h3 : path.length > 2
            · rw [if_pos h3]
              exact ih path.dropLast (by simp [List.length_dropLast]; omega) m
            · have hlt : path.dropLast.length < 2 := by
                simp [List.length_dropLast]; omega
              rw [if_neg h3, ensurePath, if_pos hlt]
          rw [ensurePath_unfold _ path h2, hM1' _ hpref, if_neg hC, hw]
          rfl
        | some m2 =>
          simp only [Option.getD_some]
          have hws := writePathOpt_some _ _ _ _ hw
          have hc : truthy (newContainer path) = true := by
            unfold newContainer
            cases path.getLast? with
            | none => simp [truthy]
            | some k => cases k <;> simp [truthy]
          refine ensure_noop path.length path le_rfl m2 ?_
          intro i hi1 hi2
          by_cases hieq : i = path.length - 1
          · rw [hieq]
            rw [hws.1]
            exact hc
          · have hilt : i < path.length - 1 := by omega
            have hcont := hws.2 i (by rw [List.length_take]; omega)
            rw [List.take_take, min_eq_left (by omega : i ≤ path.length - 1)]
              at hcont
            exact truthy_of_isContainer _ hcont

end C4Thms

/-- C4 (confirmed): `ensurePath` is idempotent — for every path and every
model state, applying `ensurePath(p)` twice leaves the model in the same
state as applying it once: each container the first run finds or
materializes is truthy on the second run, every write the first run could
not perform is the identical no-op on the second, and the first run's own
write lands at a position the second run's checks never reach past. -/
theorem c4_ensurePath_idempotent (path : List RuntimeModel.PKey)
    (m : RuntimeModel.JVal) :
    RuntimeModel.ensurePath (RuntimeModel.ensurePath m path) path
      = RuntimeModel.ensurePath m path :=
  C4Thms.ensurePath_idem_aux path.length path le_rfl m

namespace C2Thms

open CompilerModel

theorem toHashStr_ne_empty (n : Nat) : toHashStr n ≠ "" := by
  intro h
  have h2 := congrArg String.data h
  simp [toHashStr] at h2

theorem exprHashMD_ne_empty (md : IMetaData) : exprHashMD md ≠ "" :=
  toHashStr_ne_empty _

theorem mem_setA {K V : Type} [DecidableEq K]
    (l : List (K × V)) (k : K) (v : V) :
    ∀ pr ∈ setA l k v, pr = (k, v) ∨ pr ∈ l := by
  induction l with
  | nil =>
    intro pr h
    simp only [setA, List.mem_singleton] at h
    exact Or.inl h
  | cons a rest ih =>
    intro pr h
    obtain ⟨k', v'⟩ := a
    by_cases hk : k' = k
    · simp only [setA, if_pos hk] at h
      rcases List.mem_cons.mp h with h' | h'
      · subst hk
        exact Or.inl h'
      · exact Or.inr (List.mem_cons_of_mem _ h')
    · simp only [setA, if_neg hk] at h
      rcases List.mem_cons.mp h with h' | h'
      · exact Or.inr (h' ▸ List.mem_cons_self _ _)
      · rcases ih pr h' with h'' | h''
        · exact Or.inl h''
        · exact Or.inr (List.mem_cons_of_mem _ h'')

theorem mem_upsert {V : Type} (l : List (String × V)) (h : String) (v : V) :
    ∀ pr ∈ upsert l h v, pr = (h, v) ∨ pr ∈ l := by
  intro pr hm
  unfold upsert at hm
  by_cases hc : containsKey l h = true
  · rw [if_pos hc] at hm
    exact mem_setA l h v pr hm
  · rw [if_neg hc] at hm
    rcases List.mem_append.mp hm with h' | h'
    · exact Or.inr h'
    · exact Or.inl (by simpa using h')

theorem serializeList_preserves
    (serialize : ExprNode → Tables → IRef × Tables)
    (hs : ∀ e tbl, MdInv tbl → MdInv (serialize e tbl).2) :
    ∀ (es : List ExprNode) (tbl : Tables),
      MdInv tbl → MdInv (serializeList serialize es tbl).2 := by
  intro es
  induction es with
  | nil => intro tbl h; simpa [serializeList] using h
  | cons e rest ih =>
    intro tbl h
    simp only [serializeList]
    exact ih _ (hs e tbl h)

theorem collectPaths_preserves (inp : CompileInput)
    (serialize : ExprNode → Tables → IRef × Tables)
    (hs : ∀ e tbl, MdInv tbl → MdInv (serialize e tbl).2) :
    ∀ (pm : List (ExprNode × List ExprNode)) (tbl : Tables),
      MdInv tbl → MdInv (collectPaths inp serialize pm tbl).2 := by
  intro pm
  induction pm with
  | nil => intro tbl h; simpa [collectPaths] using h
  | cons pr rest ih =>
    intro tbl h
    obtain ⟨cond, ipath⟩ := pr
    simp only [collectPaths]
    split
    · exact ih _ (serializeList_preserves serialize hs _ _ (hs cond tbl h))
    · exact ih _ (hs cond tbl h)

theorem addMetaData_fst (mds : List (String × IMetaData)) (m : IMetaData) :
    (addMetaData mds m).1 = exprHashMD m := by
  by_cases h : containsKey mds (exprHashMD m) = true <;>
    simp [addMetaData, h]

theorem generateProjection_preserves (inp : CompileInput)
    (serialize : ExprNode → Tables → IRef × Tables)
    (hs : ∀ e tbl, MdInv tbl → MdInv (serialize e tbl).2)
    (e : ExprNode) (tbl : Tables) (h : MdInv tbl) :
    MdInv (generateProjectionFromExpression inp serialize e tbl).2
    ∧ (generateProjectionFromExpression inp serialize e tbl).1.metaData ≠ "" := by
  constructor
  · exact serializeList_preserves serialize hs _ _
      (collectPaths_preserves inp serialize hs _ _ h)
  · have hrfl : (generateProjectionFromExpression inp serialize e tbl).1.metaData
        = (addMetaData
            ((collectPaths inp serialize (tokView e).pathMap tbl).2).mds
            ⟨(tokView e).invalidates,
              (collectPaths inp serialize (tokView e).pathMap tbl).1⟩).1 := rfl
    rw [hrfl, addMetaData_fst]
    exact exprHashMD_ne_empty _

theorem serializeProjection_preserves (inp : CompileInput) :
    ∀ (fuel : Nat) (e : ExprNode) (tbl : Tables),
      MdInv tbl → MdInv (serializeProjection inp fuel e tbl).2 := by
  intro fuel
  induction fuel with
  | zero => intro e tbl h; simpa [serializeProjection] using h
  | succ fuel ih =>
    intro e tbl h
    cases e with
    | lit v =>
      cases v with
      | vint n =>
        by_cases hc : canBeStoredInRef n = true
        · simp only [serializeProjection, if_pos hc]
          exact h
        · simp only [serializeProjection, if_neg hc]
          exact h
      | vnull => exact h
      | vundefined => exact h
      | vbool b => exact h
      | vstr s => exact h
    | tok typ tr id inv src pm =>
      by_cases hck : containsKey tbl.projs
          (exprHashExpr (.tok typ tr id inv src pm)) = true
      · simp only [serializeProjection, if_pos hck]
        exact h
      · simp only [serializeProjection, if_neg hck]
        have hg := generateProjection_preserves inp (serializeProjection inp fuel)
          (fun e' tbl' h' => ih e' tbl' h') (.tok typ tr id inv src pm) tbl h
        intro pr hpr
        rcases mem_upsert _ _ _ pr hpr with h1 | h1
        · rw [h1]
          exact hg.2
        · exact hg.1 pr h1
    | expr hd args =>
      by_cases hck : containsKey tbl.projs (exprHashExpr (.expr hd args)) = true
      · simp only [serializeProjection, if_pos hck]
        exact h
      · simp only [serializeProjection, if_neg hck]
        have hg := generateProjection_preserves inp (serializeProjection inp fuel)
          (fun e' tbl' h' => ih e' tbl' h') (.expr hd args) tbl h
        intro pr hpr
        rcases mem_upsert _ _ _ pr hpr with h1 | h1
        · rw [h1]
          exact hg.2
        · exact hg.1 pr h1

theorem serializeSetter_preserves (inp : CompileInput) (fuel : Nat)
    (tbl : Tables) (setter : SetterExpr) (name : String)
    (h : MdInv tbl) :
    MdInv (serializeSetter inp fuel tbl setter name).2 :=
  serializeList_preserves _
    (fun e t ht => serializeProjection_preserves inp fuel e t ht) _ _ h

theorem jsIndexOf_cons_ne {α : Type} [DecidableEq α]
    (a x : α) (l : List α) (h : a ≠ x) : jsIndexOf (a :: l) x ≠ 0 := by
  simp only [jsIndexOf, if_neg h]
  by_cases h2 : jsIndexOf l x < 0
  · simp [h2]
  · simp only [h2, if_neg]
    omega

end C2Thms

/-- C2 (counterexample): a projection with no invalidation contribution
does not carry metadata reference index 0.  At the concrete compile input
below, the single compiled projection (a bare `size` token with no
invalidation paths and no `invalidates` flag) packs as `[0, 1]` —
metadata index 1, the separately interned `{paths: []}` record (the
`paths` array is truthy in JS even when empty, so
`generateProjectionFromExpression` always interns a real record), whose
packed content `[0]` merely equals the sentinel's. -/
theorem c2_counterexample :
    (CompilerModel.buildProjectionData
        ⟨[("a", .tok "size" false 0 false "" .nil)], ["a"], [], fun _ => -1, false⟩
        4).getters = [[0, 1]]
    ∧ (CompilerModel.buildProjectionData
        ⟨[("a", .tok "size" false 0 false "" .nil)], ["a"], [], fun _ => -1, false⟩
        4).metaData = [[0], [0]] := by
  constructor
  · decide
  · decide

/-- C2 (amended): in every compiled `ProjectionData`, `metaData[0]` is the
sentinel record `(0, [])`; however no compiled projection references index
0 — every getter row carries a non-zero metadata index, a projection with
no invalidation contribution referencing the separately interned empty
record (whose packed content equals the sentinel's) rather than the
sentinel slot. -/
theorem c2_amended_sentinel_and_nonzero_md
    (inp : CompilerModel.CompileInput) (fuel : Nat) :
    (CompilerModel.buildProjectionData inp fuel).metaData.headD [] = [0]
    ∧ ∀ g ∈ (CompilerModel.buildProjectionData inp fuel).getters,
        ∃ a b rest, g = a :: b :: rest ∧ b ≠ 0 := by
  constructor
  · simp [CompilerModel.buildProjectionData]
  · intro g hg
    simp only [CompilerModel.buildProjectionData, List.mem_map] at hg
    obtain ⟨pr, hmem, hpack⟩ := hg
    have hne : pr.2.metaData ≠ "" := by
      refine (RuntimeModelThms.foldl_preserves
          (fun acc : List (String × String × List CompilerModel.IRef × Int) ×
              CompilerModel.Tables => CompilerModel.MdInv acc.2) _ ?_ inp.setters _
          (RuntimeModelThms.foldl_preserves
            (fun acc : List (Option String × CompilerModel.IRef) ×
                CompilerModel.Tables => CompilerModel.MdInv acc.2) _ ?_
            inp.realGetters _ ?_))
        pr hmem
      · intro s a hs
        exact C2Thms.serializeSetter_preserves inp fuel _ _ _ hs
      · intro s a hs
        dsimp only
        split
        · exact C2Thms.serializeProjection_preserves inp fuel _ _ hs
        · exact C2Thms.serializeProjection_preserves inp fuel _ _ hs
      · intro q hq
        simp at hq
    simp only [CompilerModel.packProjection] at hpack
    refine ⟨_, _, _, hpack.symm, ?_⟩
    rw [if_neg hne]
    exact C2Thms.jsIndexOf_cons_ne _ _ _ (Ne.symm hne)

/-- C2 (witness): applying the amended theorem at a concrete compile — the
sentinel sits at metadata index 0, and the compiled getter row `[0, 1]` of
that program has a non-zero metadata index. -/
theorem c2_amended_sentinel_and_nonzero_md_witness :
    (CompilerModel.buildProjectionData
        ⟨[("a", .tok "size" false 0 false "" .nil)], ["a"], [],
         fun _ => -1, false⟩ 4).metaData.headD [] = [0]
    ∧ ∃ a b rest, ([0, 1] : List Int) = a :: b :: rest ∧ b ≠ 0 := by
  constructor
  · exact (c2_amended_sentinel_and_nonzero_md
      ⟨[("a", .tok "size" false 0 false "" .nil)], ["a"], [],
       fun _ => -1, false⟩ 4).1
  · exact (c2_amended_sentinel_and_nonzero_md
      ⟨[("a", .tok "size" false 0 false "" .nil)], ["a"], [],
       fun _ => -1, false⟩ 4).2 [0, 1] (by decide)

/-- C3 (confirmed): for every call of `recursiveMap` or
`recursiveMapValues`, the user function is invoked at most once per key —
for any user function, source, context and fuel, the invocation log of the
per-call state has no duplicates, enforced by the `resolved` marker set —
and a `loop(key)` call made while that same key is still being computed
(its `resolved` marker set, its result not yet stored) returns the partial
`res[key]` recorded so far, i.e. `none` (JS `undefined`) when nothing has
been stored, leaving the state untouched and not invoking the user
function. -/
theorem c3_recursive_loop_single_eval :
    (∀ (K V W C : Type) [DecidableEq K]
       (func : Option V → K → C → RuntimeModel.FComp K W)
       (src : List (K × V)) (ctx : C) (fuel : Nat),
       ((RuntimeModel.recursiveMapValues func src ctx fuel).2).calls.Nodup)
    ∧ (∀ (V W C : Type)
       (func : Option V → Nat → C → RuntimeModel.FComp Nat W)
       (src : List V) (ctx : C) (fuel : Nat),
       ((RuntimeModel.recursiveMap func src ctx fuel).2).calls.Nodup)
    ∧ (∀ (K V W C : Type) [DecidableEq K]
       (func : V → K → C → RuntimeModel.FComp K W)
       (src : K → V) (ctx : C) (fuel : Nat) (key : K)
       (st : RuntimeModel.LState K W),
       key ∈ st.resolved →
         RuntimeModel.loopFunction func src ctx (fuel + 1) key st
           = (lookupA st.res key, st)) := by
  refine ⟨?_, ?_, ?_⟩
  · intro K V W C _ func src ctx fuel
    have h := RuntimeModelThms.foldl_preserves RuntimeModel.LInv
      (fun st k => (RuntimeModel.loopFunction func (lookupA src) ctx fuel k st).2)
      (fun s a hs => RuntimeModelThms.loopFunction_preserves_LInv _ _ _ fuel a s hs)
      (src.map Prod.fst) ⟨[], [], []⟩ ⟨List.nodup_nil, by simp⟩
    have h2 : RuntimeModel.LInv ((RuntimeModel.recursiveMapValues func src ctx fuel).2) := h
    exact h2.1
  · intro V W C func src ctx fuel
    have h := RuntimeModelThms.foldl_preserves RuntimeModel.LInv
      (fun st k => (RuntimeModel.loopFunction func src.get? ctx fuel k st).2)
      (fun s a hs => RuntimeModelThms.loopFunction_preserves_LInv _ _ _ fuel a s hs)
      (List.range src.length) ⟨[], [], []⟩ ⟨List.nodup_nil, by simp⟩
    have h2 : RuntimeModel.LInv ((RuntimeModel.recursiveMap func src ctx fuel).2) := h
    exact h2.1
  · intro K V W C _ func src ctx fuel key st hk
    simp [RuntimeModel.loopFunction, hk]

/-- C3 (witness): applying the theorem at a concrete call — a user
function that re-enters its own key observes `undefined` and is invoked
exactly once — and at a concrete re-entrant `loop` state. -/
theorem c3_recursive_loop_single_eval_witness :
    ((RuntimeModel.recursiveMapValues
        (fun (_ : Option Nat) (k : Nat) (_ : Unit) =>
          RuntimeModel.FComp.callLoop k (fun r => .ret (r.getD 99)))
        [(1, 2)] () 5).2).calls.Nodup
    ∧ RuntimeModel.loopFunction
        (fun (v : Nat) (_ : Nat) (_ : Unit) => RuntimeModel.FComp.ret v)
        (fun _ => 0) () 3 7 ⟨[7], [], []⟩
      = ((none : Option Nat), ⟨[7], [], []⟩) := by
  constructor
  · exact c3_recursive_loop_single_eval.1 Nat Nat Nat Unit _ _ _ 5
  · have h := c3_recursive_loop_single_eval.2.2 Nat Nat Nat Unit
      (fun (v : Nat) (_ : Nat) (_ : Unit) => RuntimeModel.FComp.ret v)
      (fun _ => 0) () 2 7 ⟨[7], [], []⟩ (by simp)
    simpa [lookupA] using h

/-- C7 (confirmed): for a `get` expression the projection builder reorders
the arguments `(prop, obj)` to `(object, key)`: the generated projection's
args are the serializations, in order, of the object operand and of the
key — the key being replaced by the name's top-level index when the object
operand is a `topLevel` token, and kept unchanged for every other object
operand. -/
theorem c7_get_normalization (inp : CompilerModel.CompileInput)
    (serialize : CompilerModel.ExprNode → CompilerModel.Tables → CompilerModel.IRef × CompilerModel.Tables)
    (tr : Bool) (id : Int) (inv : Bool) (src : String)
    (pm : CompilerModel.PathMap)
    (prop obj : CompilerModel.ExprNode) (tbl : CompilerModel.Tables) :
    ∃ t1 : CompilerModel.Tables,
      (CompilerModel.generateProjectionFromExpression inp serialize
          (.expr (.tok "get" tr id inv src pm) (.cons prop (.cons obj .nil))) tbl).1.args
        = [(serialize obj t1).1,
           (serialize
             (if CompilerModel.isToken obj && CompilerModel.nodeType obj = "topLevel"
              then .lit (.vint (inp.tlIndex prop)) else prop)
             (serialize obj t1).2).1] := by
  exact ⟨_, rfl⟩

/-- C8 (counterexample): the claim says a root-rooted invalidation path is
kept verbatim exactly when some registered setter prefix-matches it.  The
concrete path `[root]` below is prefix-matched by the registered setter
(whose step sequence starts at `root`), yet the code discards it: the
`root` branch additionally requires `invalidatedPath.length > 1`. -/
theorem c8_counterexample :
    CompilerModel.pathMatches
        [.tok "root" false 0 false "" .nil]
        ⟨[.tok "set" false 0 false "" .nil,
          .tok "root" false 0 false "" .nil, .lit (.vstr "x"),
          .tok "key" false 0 false "" .nil]⟩ = true
    ∧ (CompilerModel.collectPaths
        ⟨[], [],
         [("s", ⟨[.tok "set" false 0 false "" .nil,
                  .tok "root" false 0 false "" .nil, .lit (.vstr "x"),
                  .tok "key" false 0 false "" .nil]⟩)],
         fun _ => -1, false⟩
        (CompilerModel.serializeProjection
          ⟨[], [],
           [("s", ⟨[.tok "set" false 0 false "" .nil,
                    .tok "root" false 0 false "" .nil, .lit (.vstr "x"),
                    .tok "key" false 0 false "" .nil]⟩)],
           fun _ => -1, false⟩ 5)
        [(.lit (.vint 1), [.tok "root" false 0 false "" .nil])]
        ⟨[], [], []⟩).1 = [] := by
  constructor
  · decide
  · decide

/-- C8 (amended): a root-rooted invalidation path is kept verbatim exactly
when it has at least two elements and some registered setter's step
sequence prefix-matches it; otherwise — including a bare `[root]` path
matched by a setter — it is discarded, contributing nothing to the
projection's metadata beyond its already-serialized condition. -/
theorem c8_amended_root_path_filter (inp : CompilerModel.CompileInput)
    (serialize : CompilerModel.ExprNode → CompilerModel.Tables → CompilerModel.IRef × CompilerModel.Tables)
    (cond : CompilerModel.ExprNode)
    (tr : Bool) (id : Int) (inv : Bool) (src : String)
    (pm : CompilerModel.PathMap)
    (rest : List CompilerModel.ExprNode) (tbl : CompilerModel.Tables) :
    (rest ≠ [] →
      (inp.setters.any fun pr =>
        CompilerModel.pathMatches
          (CompilerModel.ExprNode.tok "root" tr id inv src pm :: rest) pr.2) = true →
      CompilerModel.collectPaths inp serialize
          [(cond, CompilerModel.ExprNode.tok "root" tr id inv src pm :: rest)] tbl
        = (((serialize cond tbl).1,
            (CompilerModel.serializeList serialize
              (CompilerModel.ExprNode.tok "root" tr id inv src pm :: rest)
              (serialize cond tbl).2).1) ::
            ([] : List (CompilerModel.IRef × List CompilerModel.IRef)),
           (CompilerModel.serializeList serialize
             (CompilerModel.ExprNode.tok "root" tr id inv src pm :: rest)
             (serialize cond tbl).2).2))
    ∧ (rest = [] →
      CompilerModel.collectPaths inp serialize
          [(cond, CompilerModel.ExprNode.tok "root" tr id inv src pm :: rest)] tbl
        = ([], (serialize cond tbl).2))
    ∧ (rest ≠ [] →
      (inp.setters.any fun pr =>
        CompilerModel.pathMatches
          (CompilerModel.ExprNode.tok "root" tr id inv src pm :: rest) pr.2) = false →
      CompilerModel.collectPaths inp serialize
          [(cond, CompilerModel.ExprNode.tok "root" tr id inv src pm :: rest)] tbl
        = ([], (serialize cond tbl).2)) := by
  refine ⟨fun hrest hany => ?_, fun hrest => ?_, fun hrest hany => ?_⟩
  · cases rest with
    | nil => exact absurd rfl hrest
    | cons r rs =>
      simp [CompilerModel.collectPaths, CompilerModel.nodeType,
        CompilerModel.isExpr, hany]
  · subst hrest
    simp [CompilerModel.collectPaths, CompilerModel.nodeType,
      CompilerModel.isExpr]
  · cases rest with
    | nil => exact absurd rfl hrest
    | cons r rs =>
      simp [CompilerModel.collectPaths, CompilerModel.nodeType,
        CompilerModel.isExpr, hany]

/-- C8 (witness): applying the amended theorem at a concrete length-2 root
path prefix-matched by the registered setter: the path is kept verbatim. -/
theorem c8_amended_root_path_filter_witness :
    CompilerModel.collectPaths
        ⟨[], [],
         [("s", ⟨[.tok "set" false 0 false "" .nil,
                  .tok "root" false 0 false "" .nil, .lit (.vstr "x"),
                  .tok "key" false 0 false "" .nil]⟩)],
         fun _ => -1, false⟩
        (fun _ tbl => (.int 0, tbl))
        [(.lit (.vint 1),
          [.tok "root" false 0 false "" .nil, .lit (.vstr "x")])]
        ⟨[], [], []⟩
      = ([(.int 0, [.int 0, .int 0])], ⟨[], [], []⟩) := by
  have h := (c8_amended_root_path_filter
    ⟨[], [],
     [("s", ⟨[.tok "set" false 0 false "" .nil,
              .tok "root" false 0 false "" .nil, .lit (.vstr "x"),
              .tok "key" false 0 false "" .nil]⟩)],
     fun _ => -1, false⟩
    (fun _ tbl => (.int 0, tbl))
    (.lit (.vint 1)) false 0 false "" .nil [.lit (.vstr "x")]
    ⟨[], [], []⟩).1 (by simp) (by decide)
  simpa [CompilerModel.serializeList] using h

/-- C5 (counterexample): the claim "for every state of the pending-setter
queue, `$endBatch` clears `inBatch`, applies the queued setters in FIFO
order, and then recalculates exactly once" is false at a state with an
empty queue: `$endBatch` then only clears the flag and never runs
`recalculate` (its `if ($batchPending.length)` guard skips the whole
drain-and-recompute block). -/
theorem c5_counterexample :
    ¬ (let st : RuntimeModel.Inst Nat := ⟨0, true, false, [], false, 0, 0⟩
       (RuntimeModel.endBatch st).inBatch = false
       ∧ (RuntimeModel.endBatch st).model
           = st.batchPending.foldl (fun m f => f m) st.model
       ∧ (RuntimeModel.endBatch st).recalcRuns = st.recalcRuns + 1) := by
  intro h
  simp only [RuntimeModel.endBatch] at h
  simp at h

/-- C5 (amended): `$endBatch` always clears `inBatch`; when the queue is
non-empty it applies every queued setter in FIFO (enqueue) order and then
runs `recalculate` exactly once; when the queue is empty it does nothing
else — in particular it does not recalculate. -/
theorem c5_amended_endBatch {M : Type} (st : RuntimeModel.Inst M) :
    (RuntimeModel.endBatch st).inBatch = false
    ∧ (st.batchPending = [] →
        RuntimeModel.endBatch st = { st with inBatch := false })
    ∧ (st.batchPending ≠ [] →
        RuntimeModel.endBatch st =
          { model := st.batchPending.foldl (fun m f => f m) st.model,
            inBatch := false,
            inRecalculate := false,
            batchPending := [],
            batchingStrategy := st.batchingStrategy,
            recalcRuns := st.recalcRuns + 1,
            strategyCalls := st.strategyCalls }) := by
  by_cases h : st.batchPending = []
  · refine ⟨?_, fun _ => ?_, fun h' => absurd h h'⟩ <;>
      simp [RuntimeModel.endBatch, h]
  · refine ⟨?_, fun h' => absurd h' h, fun _ => ?_⟩ <;>
      simp [RuntimeModel.endBatch, RuntimeModel.recalculate, h]

/-- C5 (witness): applying the amended theorem at a concrete one-element
queue: the setter is applied, the queue is drained, and `recalculate` runs
once. -/
theorem c5_amended_endBatch_witness :
    RuntimeModel.endBatch
        (⟨0, true, false, [fun m => m + 5], false, 0, 0⟩ : RuntimeModel.Inst Nat)
      = ⟨5, false, false, [], false, 1, 0⟩ := by
  have h := (c5_amended_endBatch
    (⟨0, true, false, [fun m => m + 5], false, 0, 0⟩ : RuntimeModel.Inst Nat)).2.2
    (by simp)
  simpa using h

/-- C6 (counterexample): the claim says that whenever a setter call is
enqueued, the batching strategy is invoked "outside an ongoing batch".  At
the concrete state below (`inBatch = false`, `inRecalculate = true`,
strategy installed) the call is outside a batch, yet the code requires
`!inBatch && !inRecalculate` and does not invoke the strategy. -/
theorem c6_counterexample :
    ¬ (let st : RuntimeModel.Inst Nat := ⟨0, false, true, [], true, 0, 0⟩
       (RuntimeModel.setterCall st (fun m => m + 1)).strategyCalls
         = st.strategyCalls + 1) := by
  intro h
  simp [RuntimeModel.setterCall] at h

/-- C6 (amended): the full dispatch of an exported setter call: if
`inBatch || inRecalculate || batchingStrategy`, the call is appended to
`batchPending`; the strategy is invoked (and `inBatch` set) exactly when
additionally `!inBatch && !inRecalculate` and a strategy is installed —
not merely "outside an ongoing batch"; otherwise the mutation is applied
to the model immediately and `recalculate` runs. -/
theorem c6_amended_setter {M : Type} (st : RuntimeModel.Inst M) (f : M → M) :
    ((st.inBatch || st.inRecalculate || st.batchingStrategy) = true →
      ((!st.inBatch && !st.inRecalculate) && st.batchingStrategy) = true →
        RuntimeModel.setterCall st f =
          { st with batchPending := st.batchPending ++ [f],
                    inBatch := true,
                    strategyCalls := st.strategyCalls + 1 })
    ∧ ((st.inBatch || st.inRecalculate || st.batchingStrategy) = true →
      ((!st.inBatch && !st.inRecalculate) && st.batchingStrategy) = false →
        RuntimeModel.setterCall st f =
          { st with batchPending := st.batchPending ++ [f] })
    ∧ ((st.inBatch || st.inRecalculate || st.batchingStrategy) = false →
        RuntimeModel.setterCall st f =
          RuntimeModel.recalculate { st with model := f st.model }) := by
  refine ⟨fun h1 h2 => ?_, fun h1 h2 => ?_, fun h1 => ?_⟩
  · simp [RuntimeModel.setterCall, h1, h2]
  · simp [RuntimeModel.setterCall, h1, h2]
  · simp [RuntimeModel.setterCall, h1]

/-- C6 (witness): applying the amended theorem at a concrete idle state
with a strategy installed: the call is enqueued, `inBatch` is set and the
strategy is invoked once. -/
theorem c6_amended_setter_witness :
    RuntimeModel.setterCall
        (⟨0, false, false, [], true, 0, 0⟩ : RuntimeModel.Inst Nat)
        (fun m => m + 1)
      = ⟨0, true, false, [fun m => m + 1], true, 0, 1⟩ := by
  have h := (c6_amended_setter
    (⟨0, false, false, [], true, 0, 0⟩ : RuntimeModel.Inst Nat)
    (fun m => m + 1)).1 (by rfl) (by rfl)
  simpa using h
